import Mathlib

/-!
Verification of the chapter-segmentation and TOC-parsing logic of
`src/pdf_to_epub.py` against its natural-language specification.

The embedding translates the pure logic of the program:
  * `parse_toc_text` (source lines 33-55): the regex
    `^(?!.*Contenido)(.*?)(?:\s*\.+\s*|\s+-\s+)(\d+)$` with `re.IGNORECASE`,
    applied with `pattern.match` to each stripped line, is modelled by
    explicit backtracking combinators over `List Char` that mirror the
    engine's preference order (lazy `.*?`, greedy `\s*`/`\.+`/`\s+`,
    left-to-right alternation, `$` end anchor).
  * `combine_pages` (lines 57-63), the chapter segmentation inside
    `pdf_to_epub` (lines 136-176), the per-page content formatting
    (lines 104-125), and the `__main__` argument handling (lines 204-213).

Machine integers are modelled as `Int` (Python ints are unbounded);
Python exceptions (e.g. `min([])` raising `ValueError`) are modelled by
`Option`, with `none` for an unhandled error.
-/

/-- Python `\s` for the ASCII range (the inputs of interest are ASCII):
space, tab, newline, carriage return, vertical tab, form feed. -/
def pyIsSpace (c : Char) : Bool :=
  c = ' ' || c = '\t' || c = '\n' || c = '\r' || c = '\x0b' || c = '\x0c'

/-- Python `\d` for the ASCII range: a decimal digit. -/
def isDigitCh (c : Char) : Bool := '0' ≤ c && c ≤ '9'

/-- The literal `\.` of the pattern: a period character. -/
def isDotCh (c : Char) : Bool := c = '.'

/-- ASCII lower-casing, used to model `re.IGNORECASE` on the literal
`Contenido` (the only letters in the pattern). -/
def lowerChar (c : Char) : Char :=
  if 'A' ≤ c ∧ c ≤ 'Z' then Char.ofNat (c.toNat + 32) else c

/-- Substring test over char lists: does `needle` occur contiguously in the
argument? -/
def containsSub (needle : List Char) : List Char → Bool
  | [] => needle.isEmpty
  | c :: rest => needle.isPrefixOf (c :: rest) || containsSub needle rest

/-- The negative lookahead `(?!.*Contenido)` with `re.IGNORECASE`, checked by
`pattern.match` at position 0: it fails exactly when `Contenido` occurs
case-insensitively anywhere in the line (lines contain no newline, so `.*`
reaches every position). -/
def containsContenido (s : List Char) : Bool :=
  containsSub ("contenido".data) (s.map lowerChar)

/-- Greedy `p*`: consume as many `p`-characters as possible, backtracking to
shorter matches (continuation `k`) on failure, mirroring the regex engine. -/
def starGreedy (p : Char → Bool) (k : List Char → Option (List Char)) :
    List Char → Option (List Char)
  | [] => k []
  | c :: rest =>
    if p c then (starGreedy p k rest).orElse (fun _ => k (c :: rest))
    else k (c :: rest)

/-- Greedy `p+`: one mandatory `p`-character followed by greedy `p*`. -/
def plusGreedy (p : Char → Bool) (k : List Char → Option (List Char))
    (s : List Char) : Option (List Char) :=
  match s with
  | c :: rest => if p c then starGreedy p k rest else none
  | [] => none

/-- First separator alternative `\s*\.+\s*` of the pattern, in continuation
style. -/
def sepAlt1 (k : List Char → Option (List Char)) (s : List Char) :
    Option (List Char) :=
  starGreedy pyIsSpace
    (fun s1 => plusGreedy isDotCh (fun s2 => starGreedy pyIsSpace k s2) s1) s

/-- Second separator alternative `\s+-\s+` of the pattern. -/
def sepAlt2 (k : List Char → Option (List Char)) (s : List Char) :
    Option (List Char) :=
  plusGreedy pyIsSpace
    (fun s1 =>
      match s1 with
      | '-' :: s2 => plusGreedy pyIsSpace k s2
      | _ => none) s

/-- The trailing `(\d+)$` of the pattern: greedy one-or-more digits anchored
at end of line.  A greedy `\d+` followed by `$` succeeds exactly when the
whole remainder is a nonempty digit string, which it captures. -/
def digitsOnly (s : List Char) : Option (List Char) :=
  if !s.isEmpty && s.all isDigitCh then some s else none

/-- The suffix `(?:\s*\.+\s*|\s+-\s+)(\d+)$` of the pattern starting at the
current position: try the first separator alternative (with full
backtracking through the digit continuation), then the second. -/
def sepDigits (s : List Char) : Option (List Char) :=
  (sepAlt1 digitsOnly s).orElse (fun _ => sepAlt2 digitsOnly s)

/-- The lazy `(.*?)` prefix: try the separator-and-digits suffix at the
current position first (shortest title wins), else extend the title by one
character (`.` matches anything but a newline).  Returns the raw group 1
(title) and group 2 (digits). -/
def matchTitleLoop : List Char → List Char → Option (List Char × List Char)
  | acc, [] =>
    (match sepDigits [] with
     | some ds => some (acc, ds)
     | none => none)
  | acc, c :: rest =>
    match sepDigits (c :: rest) with
    | some ds => some (acc, ds)
    | none => if c = '\n' then none else matchTitleLoop (acc ++ [c]) rest

/-- `pattern.match(line)` for
`^(?!.*Contenido)(.*?)(?:\s*\.+\s*|\s+-\s+)(\d+)$` with `re.IGNORECASE`
(source line 42): the lookahead first, then the anchored body. -/
def lineMatch (s : List Char) : Option (List Char × List Char) :=
  if containsContenido s then none else matchTitleLoop [] s

/-- Python `str.strip()` over char lists (ASCII whitespace). -/
def pyStripChars (s : List Char) : List Char :=
  ((s.dropWhile pyIsSpace).reverse.dropWhile pyIsSpace).reverse

/-- Python `str.splitlines()` for the terminators `\n`, `\r\n` and `\r`
(the ones arising in the inputs of interest); a trailing terminator does
not produce a final empty line. -/
def pySplitlinesAux (acc : List Char) : List Char → List (List Char)
  | [] => if acc.isEmpty then [] else [acc]
  | '\r' :: '\n' :: rest => acc :: pySplitlinesAux [] rest
  | '\r' :: rest => acc :: pySplitlinesAux [] rest
  | '\n' :: rest => acc :: pySplitlinesAux [] rest
  | c :: rest => pySplitlinesAux (acc ++ [c]) rest

def pySplitlines (s : String) : List (List Char) :=
  pySplitlinesAux [] s.data

/-- Numeric value of a digit string, as `int(...)` computes it on the
(necessarily nonempty, all-digit) group 2; the `except ValueError` branch of
lines 53-54 is unreachable for such strings. -/
def digitsToNat (ds : List Char) : Nat :=
  ds.foldl (fun n c => n * 10 + (c.toNat - 48)) 0

/-- The loop of `parse_toc_text` (lines 43-54): strip each line, skip empty
lines, and on a match append `(group(1).strip(), int(group(2)))`. -/
def parseLines : List (List Char) → List (String × Int)
  | [] => []
  | lc :: rest =>
    let line := pyStripChars lc
    if line.isEmpty then parseLines rest
    else
      match lineMatch line with
      | some (title, ds) =>
        (String.mk (pyStripChars title), (digitsToNat ds : Int)) :: parseLines rest
      | none => parseLines rest

/-- `parse_toc_text` (source lines 33-55). -/
def parse_toc_text (text : String) : List (String × Int) :=
  parseLines (pySplitlines text)

/-- Python `range(a, b + 1)` as a list of `Int`: the inclusive range
`[a, b]`, empty when `b < a`. -/
def intRange (a b : Int) : List Int :=
  (List.range (b + 1 - a).toNat).map (fun (i : Nat) => a + (i : Int))

/-- Python `min(list)` on ints, with `none` for the `ValueError` raised on an
empty list. -/
def listMin : List Int → Option Int
  | [] => none
  | x :: xs =>
    match listMin xs with
    | none => some x
    | some m => some (min x m)

/-- Python `max(list)` on ints, with `none` for the `ValueError` raised on an
empty list. -/
def listMax : List Int → Option Int
  | [] => none
  | x :: xs =>
    match listMax xs with
    | none => some x
    | some m => some (max x m)

/-- Stable insertion by the sort key of line 151 (`key=lambda x: x[1]`): a
new element goes after existing elements with an equal key. -/
def insertByPage (x : String × Int) : List (String × Int) → List (String × Int)
  | [] => [x]
  | y :: ys => if x.2 < y.2 then x :: y :: ys else y :: insertByPage x ys

/-- `sorted(toc_entries, key=lambda x: x[1])` (line 151): a stable sort by
starting page. -/
def sortByPage : List (String × Int) → List (String × Int)
  | [] => []
  | x :: xs => insertByPage x (sortByPage xs)

/-- A chapter as assembled by the segmentation loop: title, inclusive page
range, and output file name.  Its XHTML content is
`combine_pages page_contents start stop` (lines 155, 169, 174), recovered by
`combine_pages` below. -/
structure SegChapter where
  title : String
  start : Int
  stop : Int
  filename : String
deriving Repr, DecidableEq

/-- End page of the current TOC entry (lines 164-168): the next entry's
starting page minus one, or `max(content_pages)` for the last entry. -/
def nextEnd (mx : Int) : List (String × Int) → Int
  | [] => mx
  | (_, np) :: _ => np - 1

/-- The `for idx, entry in enumerate(toc_entries)` loop of lines 159-171:
an entry whose starting page equals the TOC page is skipped (`continue`)
but still advances `idx`; an emitted entry becomes a chapter named
`chapter_<idx+1>.xhtml`. -/
def entryChapters (toc_page : Option Int) (mx : Int) :
    Nat → List (String × Int) → List SegChapter
  | _, [] => []
  | idx, (title, sp) :: rest =>
    if some sp = toc_page then entryChapters toc_page mx (idx + 1) rest
    else
      ⟨title, sp, nextEnd mx rest,
        "chapter_" ++ toString (idx + 1) ++ ".xhtml"⟩ ::
        entryChapters toc_page mx (idx + 1) rest

/-- The chapter segmentation of lines 149-176.  `none` models the unhandled
`ValueError` from `min`/`max` on an empty `content_pages` (line 154 when TOC
entries exist, line 174 otherwise).  With entries present they are sorted by
starting page; a `Prefacio` chapter is synthesized when pages precede the
first entry (lines 152-157); otherwise a single fallback `Contenido` chapter
spans the whole eligible range (lines 172-176). -/
def segmentChapters (content_pages : List Int) (toc_entries : List (String × Int))
    (toc_page : Option Int) : Option (List SegChapter) :=
  if toc_entries.isEmpty then
    match listMin content_pages, listMax content_pages with
    | some mn, some mx => some [⟨"Contenido", mn, mx, "chapter_1.xhtml"⟩]
    | _, _ => none
  else
    match listMin content_pages, listMax content_pages with
    | some mn, some mx =>
      let sortedE := sortByPage toc_entries
      let first_entry_page := (sortedE.headD ("", 0)).2
      let pre : List SegChapter :=
        if mn < first_entry_page then
          [⟨"Prefacio", mn, first_entry_page - 1, "chapter_prefacio.xhtml"⟩]
        else []
      some (pre ++ entryChapters toc_page mx 0 sortedE)
    | _, _ => none

/-- `combine_pages` (lines 57-63): concatenate, in ascending page order, the
contents of the pages of the inclusive range `[start, stop]` that are present
in the mapping (`for p in range(start, end + 1): if p in page_contents`). -/
def combine_pages (page_contents : Int → Option String) (start stop : Int) :
    String :=
  (intRange start stop).foldl
    (fun acc p =>
      match page_contents p with
      | some c => acc ++ c
      | none => acc) ""

/-- Leftmost, non-overlapping replacement of every occurrence of `pat` by
`rep`, as Python `str.replace`; `fuel` (initially the input length) bounds
the recursion and never runs out since each step consumes at least one
character.  An empty `pat` leaves the string unchanged (the source only
replaces the nonempty patterns `"\n"` and `".pdf"`). -/
def replaceAllFuel (pat rep : List Char) : Nat → List Char → List Char
  | 0, l => l
  | _ + 1, [] => []
  | fuel + 1, c :: rest =>
    if !pat.isEmpty && pat.isPrefixOf (c :: rest) then
      rep ++ replaceAllFuel pat rep fuel (rest.drop (pat.length - 1))
    else c :: replaceAllFuel pat rep fuel rest

/-- Python `str.replace(pat, rep)`. -/
def pyReplace (s pat rep : String) : String :=
  String.mk (replaceAllFuel pat.data rep.data s.data.length s.data)

/-- The per-page text formatting of lines 106-122: newlines become `<br/>`
and a page-reference marker is appended (the marker text reproduces the
source literal, including its mojibake `PÃ¡gina`). -/
def formatPage (txt : String) (p : Int) : String :=
  pyReplace txt "\n" "<br/>" ++
    "<br/><span class=\x27page-ref\x27>[P\xc3\xa1gina " ++ toString p ++ "]</span>"

/-- The `page_contents` dictionary of lines 99-125: every page `2..N` maps to
its formatted text followed by its inline image markup (the image markup is
produced by the external PDF library, lines 110-119, and is passed in here
as an opaque per-page string). -/
def page_contents (N : Int) (pageText pageImagesHtml : Int → String)
    (p : Int) : Option String :=
  if 2 ≤ p ∧ p ≤ N then some (formatPage (pageText p) p ++ pageImagesHtml p)
  else none

/-- `content_page_numbers = list(range(2, total_pages + 1))` (line 96). -/
def contentPageNumbers (N : Int) : List Int := intRange 2 N

/-- Lines 136-141: the eligible content pages, excluding the TOC page when
one is designated. -/
def contentPages (N : Int) (toc_page : Option Int) : List Int :=
  match toc_page with
  | some tp => (contentPageNumbers N).filter (fun p => p ≠ tp)
  | none => contentPageNumbers N

/-- Lines 143-147: TOC entries are parsed from the designated page's raw
text when that page number is among the content page numbers. -/
def tocEntriesOf (N : Int) (pageText : Int → String) (toc_page : Option Int) :
    List (String × Int) :=
  match toc_page with
  | some tp =>
    if tp ∈ contentPageNumbers N then parse_toc_text (pageText tp) else []
  | none => []

/-- The pure chapter-producing part of `pdf_to_epub` (lines 65-176) for a
document of `N` pages whose raw per-page text is `pageText`. -/
def conversionChapters (N : Int) (pageText : Int → String)
    (toc_page : Option Int) : Option (List SegChapter) :=
  segmentChapters (contentPages N toc_page) (tocEntriesOf N pageText toc_page) toc_page

/-- Does page `p` fall inside the chapter's inclusive page range? -/
def inRangeB (p : Int) (ch : SegChapter) : Bool :=
  decide (ch.start ≤ p ∧ p ≤ ch.stop)

/-- Outcome of the `__main__` block: either the usage error (printed message
and `sys.exit(1)`, a non-zero exit) or a conversion run with the chosen
input file, output file and raw TOC-page argument. -/
inductive MainResult where
  | usageError : MainResult
  | runs : String → String → Option String → MainResult
deriving Repr, DecidableEq

/-- The argument handling of lines 204-213: with fewer than 2 entries in
`sys.argv` (i.e. no user argument at all) the usage error fires; otherwise
the input is `argv[1]`, the output name is derived from `argv[1]` by
replacing `.pdf` with `.epub` (line 210), and `argv[2]` is the TOC page
argument when exactly 3 entries are present (kept as its raw string here;
line 211 applies `int` to it). -/
def mainArgs (argv : List String) : MainResult :=
  if argv.length < 2 then MainResult.usageError
  else
    MainResult.runs (argv.getD 1 "") (pyReplace (argv.getD 1 "") ".pdf" ".epub")
      (if argv.length == 3 then some (argv.getD 2 "") else none)

/-- Concrete page texts of the 5-page document used to exercise the TOC-page
leak: page 3 (the designated TOC page) parses to the single entry
`("A", 2)`. -/
def c2PageText (p : Int) : String :=
  if p = 3 then "A .... 2" else "texto " ++ toString p

/-- The 5-page document of `c2PageText` carries no embedded images. -/
def c2ImagesHtml (_ : Int) : String := ""

/-- The content string stored for page `p` of the `c2PageText` document. -/
def c2PageContentAt (p : Int) : String :=
  formatPage (c2PageText p) p ++ c2ImagesHtml p

/-! Helper lemmas about the embedded operations. -/

theorem inRangeB_iff {p : Int} {ch : SegChapter} :
    inRangeB p ch = true ↔ (ch.start ≤ p ∧ p ≤ ch.stop) := by
  simp [inRangeB]

theorem listMin_eq_none_iff {l : List Int} : listMin l = none ↔ l = [] := by
  cases l with
  | nil => simp [listMin]
  | cons a l =>
    constructor
    · intro h
      rw [listMin] at h
      cases hl : listMin l <;> rw [hl] at h <;> simp at h
    · intro h
      simp at h

theorem listMin_le {l : List Int} :
    ∀ {m : Int}, listMin l = some m → ∀ x ∈ l, m ≤ x := by
  induction l with
  | nil => intro m hm; simp [listMin] at hm
  | cons a l ih =>
    intro m hm x hx
    rw [listMin] at hm
    cases hl : listMin l with
    | none =>
      rw [hl] at hm
      have hl2 : l = [] := listMin_eq_none_iff.mp hl
      subst hl2
      simp at hx hm
      omega
    | some m2 =>
      rw [hl] at hm
      simp at hm
      rcases List.mem_cons.mp hx with heq | h
      · rw [heq, ← hm]; exact min_le_left a m2
      · exact le_trans (by rw [← hm]; exact min_le_right a m2) (ih hl x h)

theorem listMin_mem {l : List Int} :
    ∀ {m : Int}, listMin l = some m → m ∈ l := by
  induction l with
  | nil => intro m hm; simp [listMin] at hm
  | cons a l ih =>
    intro m hm
    rw [listMin] at hm
    cases hl : listMin l with
    | none => rw [hl] at hm; simp at hm; simp [hm]
    | some m2 =>
      rw [hl] at hm
      simp at hm
      rcases min_cases a m2 with ⟨he, _⟩ | ⟨he, _⟩
      · rw [← hm, he]; exact List.mem_cons_self a l
      · rw [← hm, he]; exact List.mem_cons_of_mem a (ih hl)

theorem listMin_isSome {l : List Int} (h : l ≠ []) :
    ∃ m, listMin l = some m := by
  cases hl : listMin l with
  | none => exact absurd (listMin_eq_none_iff.mp hl) h
  | some m => exact ⟨m, rfl⟩

theorem listMax_eq_none_iff {l : List Int} : listMax l = none ↔ l = [] := by
  cases l with
  | nil => simp [listMax]
  | cons a l =>
    constructor
    · intro h
      rw [listMax] at h
      cases hl : listMax l <;> rw [hl] at h <;> simp at h
    · intro h
      simp at h

theorem listMax_ge {l : List Int} :
    ∀ {m : Int}, listMax l = some m → ∀ x ∈ l, x ≤ m := by
  induction l with
  | nil => intro m hm; simp [listMax] at hm
  | cons a l ih =>
    intro m hm x hx
    rw [listMax] at hm
    cases hl : listMax l with
    | none =>
      rw [hl] at hm
      have hl2 : l = [] := listMax_eq_none_iff.mp hl
      subst hl2
      simp at hx hm
      omega
    | some m2 =>
      rw [hl] at hm
      simp at hm
      rcases List.mem_cons.mp hx with heq | h
      · rw [heq, ← hm]; exact le_max_left a m2
      · exact le_trans (ih hl x h) (by rw [← hm]; exact le_max_right a m2)

theorem listMax_mem {l : List Int} :
    ∀ {m : Int}, listMax l = some m → m ∈ l := by
  induction l with
  | nil => intro m hm; simp [listMax] at hm
  | cons a l ih =>
    intro m hm
    rw [listMax] at hm
    cases hl : listMax l with
    | none => rw [hl] at hm; simp at hm; simp [hm]
    | some m2 =>
      rw [hl] at hm
      simp at hm
      rcases max_cases a m2 with ⟨he, _⟩ | ⟨he, _⟩
      · rw [← hm, he]; exact List.mem_cons_self a l
      · rw [← hm, he]; exact List.mem_cons_of_mem a (ih hl)

theorem listMax_isSome {l : List Int} (h : l ≠ []) :
    ∃ m, listMax l = some m := by
  cases hl : listMax l with
  | none => exact absurd (listMax_eq_none_iff.mp hl) h
  | some m => exact ⟨m, rfl⟩

theorem mem_intRange {a b x : Int} : x ∈ intRange a b ↔ a ≤ x ∧ x ≤ b := by
  rw [intRange]
  constructor
  · intro hx
    obtain ⟨i, hi, hix⟩ := List.mem_map.mp hx
    rw [List.mem_range] at hi
    subst hix
    constructor <;> omega
  · rintro ⟨h1, h2⟩
    refine List.mem_map.mpr ⟨(x - a).toNat, ?_, ?_⟩
    · rw [List.mem_range]; omega
    · omega

theorem listMin_intRange {a b : Int} (h : a ≤ b) :
    listMin (intRange a b) = some a := by
  have ha : a ∈ intRange a b := mem_intRange.mpr ⟨le_refl a, h⟩
  obtain ⟨m, hm⟩ := listMin_isSome (List.ne_nil_of_mem ha)
  have h1 : m ≤ a := listMin_le hm a ha
  have h2 : a ≤ m := (mem_intRange.mp (listMin_mem hm)).1
  rw [hm]
  congr 1
  omega

theorem listMax_intRange {a b : Int} (h : a ≤ b) :
    listMax (intRange a b) = some b := by
  have hb : b ∈ intRange a b := mem_intRange.mpr ⟨h, le_refl b⟩
  obtain ⟨m, hm⟩ := listMax_isSome (List.ne_nil_of_mem hb)
  have h1 : b ≤ m := listMax_ge hm b hb
  have h2 : m ≤ b := (mem_intRange.mp (listMax_mem hm)).2
  rw [hm]
  congr 1
  omega

theorem mem_insertByPage {z x : String × Int} :
    ∀ {l}, z ∈ insertByPage x l ↔ z = x ∨ z ∈ l := by
  intro l
  induction l with
  | nil => simp [insertByPage]
  | cons y ys ih =>
    rw [insertByPage]
    by_cases hxy : x.2 < y.2
    · rw [if_pos hxy]
      simp
    · rw [if_neg hxy]
      simp [ih]
      tauto

theorem mem_sortByPage {z : String × Int} :
    ∀ {l}, z ∈ sortByPage l ↔ z ∈ l := by
  intro l
  induction l with
  | nil => simp [sortByPage]
  | cons x xs ih =>
    rw [sortByPage, mem_insertByPage]
    simp [ih]

theorem pairwise_insertByPage {x : String × Int} :
    ∀ {l}, l.Pairwise (fun a b => a.2 ≤ b.2) →
      (insertByPage x l).Pairwise (fun a b => a.2 ≤ b.2) := by
  intro l
  induction l with
  | nil => intro _; simp [insertByPage]
  | cons y ys ih =>
    intro h
    rcases List.pairwise_cons.mp h with ⟨hy, hys⟩
    rw [insertByPage]
    by_cases hxy : x.2 < y.2
    · rw [if_pos hxy]
      refine List.pairwise_cons.mpr ⟨?_, h⟩
      intro b hb
      rcases List.mem_cons.mp hb with rfl | hb
      · omega
      · exact le_trans (le_of_lt hxy) (hy b hb)
    · rw [if_neg hxy]
      refine List.pairwise_cons.mpr ⟨?_, ih hys⟩
      intro b hb
      rcases mem_insertByPage.mp hb with rfl | hb
      · omega
      · exact hy b hb

theorem sortByPage_pairwise :
    ∀ (l : List (String × Int)),
      (sortByPage l).Pairwise (fun a b => a.2 ≤ b.2) := by
  intro l
  induction l with
  | nil => simp [sortByPage]
  | cons x xs ih =>
    rw [sortByPage]
    exact pairwise_insertByPage ih

theorem sortByPage_ne_nil {l : List (String × Int)} (h : l ≠ []) :
    sortByPage l ≠ [] := by
  cases l with
  | nil => exact absurd rfl h
  | cons x xs =>
    intro hc
    have hx : x ∈ sortByPage (x :: xs) :=
      mem_sortByPage.mpr (List.mem_cons_self x xs)
    rw [hc] at hx
    exact absurd hx (List.not_mem_nil x)

theorem entryChapters_countP_zero {tp : Option Int} {mx b p : Int}
    (hpb : p < b) :
    ∀ (entries : List (String × Int)) (idx : Nat),
      (∀ e ∈ entries, b ≤ e.2) →
      List.countP (inRangeB p) (entryChapters tp mx idx entries) = 0 := by
  intro entries
  induction entries with
  | nil => intro idx _; simp [entryChapters]
  | cons hd rest ih =>
    intro idx hb
    obtain ⟨t, s⟩ := hd
    have hbs : b ≤ s := hb (t, s) (List.mem_cons_self _ _)
    rw [entryChapters]
    by_cases hsk : some s = tp
    · rw [if_pos hsk]
      exact ih (idx + 1) (fun e he => hb e (List.mem_cons_of_mem _ he))
    · rw [if_neg hsk, List.countP_cons]
      have hf : inRangeB p
          ⟨t, s, nextEnd mx rest,
            "chapter_" ++ toString (idx + 1) ++ ".xhtml"⟩ = false := by
        simp [inRangeB]
        omega
      rw [hf, ih (idx + 1) (fun e he => hb e (List.mem_cons_of_mem _ he))]
      simp

theorem entryChapters_countP_one {tp : Option Int} {mx p : Int}
    (hpmx : p ≤ mx) :
    ∀ (rest : List (String × Int)) (t : String) (s : Int) (idx : Nat),
      (∀ e ∈ (t, s) :: rest, some e.2 ≠ tp) →
      ((t, s) :: rest).Pairwise (fun a b => a.2 ≤ b.2) →
      s ≤ p →
      List.countP (inRangeB p) (entryChapters tp mx idx ((t, s) :: rest)) = 1 := by
  intro rest
  induction rest with
  | nil =>
    intro t s idx hsk _ hsp
    have hne : ¬ some s = tp := hsk (t, s) (List.mem_cons_self _ _)
    rw [entryChapters, if_neg hne, List.countP_cons]
    have ht : inRangeB p
        ⟨t, s, nextEnd mx [],
          "chapter_" ++ toString (idx + 1) ++ ".xhtml"⟩ = true := by
      simp [inRangeB, nextEnd]
      omega
    rw [ht]
    simp [entryChapters]
  | cons hd2 rest2 ih =>
    obtain ⟨t2, s2⟩ := hd2
    intro t s idx hsk hsort hsp
    have hne : ¬ some s = tp := hsk (t, s) (List.mem_cons_self _ _)
    rcases List.pairwise_cons.mp hsort with ⟨hhd, htl⟩
    rw [entryChapters, if_neg hne, List.countP_cons]
    by_cases hps2 : p < s2
    · have ht : inRangeB p
          ⟨t, s, nextEnd mx ((t2, s2) :: rest2),
            "chapter_" ++ toString (idx + 1) ++ ".xhtml"⟩ = true := by
        simp [inRangeB, nextEnd]
        omega
      have h0 : List.countP (inRangeB p)
          (entryChapters tp mx (idx + 1) ((t2, s2) :: rest2)) = 0 := by
        apply entryChapters_countP_zero hps2
        intro e he
        rcases List.mem_cons.mp he with heq | he2
        · rw [heq]
        · rcases List.pairwise_cons.mp htl with ⟨hh2, _⟩
          exact hh2 e he2
      rw [ht, h0]
      simp
    · have hf : inRangeB p
          ⟨t, s, nextEnd mx ((t2, s2) :: rest2),
            "chapter_" ++ toString (idx + 1) ++ ".xhtml"⟩ = false := by
        simp [inRangeB, nextEnd]
        omega
      rw [hf]
      have h1 := ih t2 s2 (idx + 1)
        (fun e he => hsk e (List.mem_cons_of_mem _ he)) htl (by omega)
      rw [h1]
      simp

theorem entryChapters_mem_spec {tp : Option Int} {mx : Int} :
    ∀ (entries : List (String × Int)) (idx : Nat) (ch : SegChapter),
      ch ∈ entryChapters tp mx idx entries →
      some ch.start ≠ tp ∧
        ∃ j, entries.get? j = some (ch.title, ch.start) ∧
          ch.filename = "chapter_" ++ toString (idx + j + 1) ++ ".xhtml" := by
  intro entries
  induction entries with
  | nil => intro idx ch h; simp [entryChapters] at h
  | cons hd rest ih =>
    intro idx ch h
    obtain ⟨t, s⟩ := hd
    rw [entryChapters] at h
    by_cases hsk : some s = tp
    · rw [if_pos hsk] at h
      obtain ⟨hne, j, hj, hf⟩ := ih (idx + 1) ch h
      refine ⟨hne, j + 1, ?_, ?_⟩
      · simpa using hj
      · have harith : idx + 1 + j + 1 = idx + (j + 1) + 1 := by omega
        rw [hf, harith]
    · rw [if_neg hsk] at h
      rcases List.mem_cons.mp h with heq | h2
      · subst heq
        refine ⟨hsk, 0, ?_, ?_⟩ <;> simp
      · obtain ⟨hne, j, hj, hf⟩ := ih (idx + 1) ch h2
        refine ⟨hne, j + 1, ?_, ?_⟩
        · simpa using hj
        · have harith : idx + 1 + j + 1 = idx + (j + 1) + 1 := by omega
          rw [hf, harith]

theorem segmentChapters_empty_cps (entries : List (String × Int))
    (tp : Option Int) : segmentChapters [] entries tp = none := by
  cases entries <;> simp [segmentChapters, listMin, listMax]

theorem segmentChapters_nil_entries {cps : List Int} {mn mx : Int}
    (tp : Option Int) (hmn : listMin cps = some mn)
    (hmx : listMax cps = some mx) :
    segmentChapters cps [] tp = some [⟨"Contenido", mn, mx, "chapter_1.xhtml"⟩] := by
  simp [segmentChapters, hmn, hmx]

theorem segmentChapters_cons_entries {cps : List Int} {mn mx : Int}
    {entries : List (String × Int)} (tp : Option Int) (hne : entries ≠ [])
    (hmn : listMin cps = some mn) (hmx : listMax cps = some mx) :
    segmentChapters cps entries tp =
      some ((if mn < ((sortByPage entries).headD ("", 0)).2 then
          [⟨"Prefacio", mn, ((sortByPage entries).headD ("", 0)).2 - 1,
            "chapter_prefacio.xhtml"⟩]
        else []) ++ entryChapters tp mx 0 (sortByPage entries)) := by
  have hie : entries.isEmpty = false := by
    cases entries
    · exact absurd rfl hne
    · rfl
  simp [segmentChapters, hie, hmn, hmx]

/-- C1 (amended): when no TOC entry starts on the designated TOC page, the
chapters produced by the segmentation of lines 149-176 partition the
eligible pages: every eligible page lies in the inclusive page range of
exactly one produced chapter. -/
theorem segment_partition_of_no_skip
    (cps : List Int) (entries : List (String × Int)) (tp : Option Int)
    (chs : List SegChapter)
    (hsk : ∀ e ∈ entries, some e.2 ≠ tp)
    (hseg : segmentChapters cps entries tp = some chs)
    (p : Int) (hp : p ∈ cps) :
    List.countP (inRangeB p) chs = 1 := by
  obtain ⟨mn, hmn⟩ := listMin_isSome (List.ne_nil_of_mem hp)
  obtain ⟨mx, hmx⟩ := listMax_isSome (List.ne_nil_of_mem hp)
  have hmnp : mn ≤ p := listMin_le hmn p hp
  have hpmx : p ≤ mx := listMax_ge hmx p hp
  by_cases he : entries = []
  · subst he
    rw [segmentChapters_nil_entries tp hmn hmx] at hseg
    have hchs : chs = [⟨"Contenido", mn, mx, "chapter_1.xhtml"⟩] :=
      (Option.some.inj hseg).symm
    subst hchs
    rw [List.countP_cons]
    have ht : inRangeB p ⟨"Contenido", mn, mx, "chapter_1.xhtml"⟩ = true := by
      simp [inRangeB]
      omega
    rw [ht]
    simp
  · rw [segmentChapters_cons_entries tp he hmn hmx] at hseg
    have hchs := (Option.some.inj hseg).symm
    subst hchs
    rcases hsE : sortByPage entries with _ | ⟨⟨t1, s1⟩, srest⟩
    · exact absurd hsE (sortByPage_ne_nil he)
    have hsorted : ((t1, s1) :: srest).Pairwise (fun a b => a.2 ≤ b.2) := by
      have hw := sortByPage_pairwise entries
      rw [hsE] at hw
      exact hw
    have hskS : ∀ e ∈ (t1, s1) :: srest, some e.2 ≠ tp := by
      intro e heS
      exact hsk e (mem_sortByPage.mp (by rw [hsE]; exact heS))
    rw [List.countP_append]
    simp only [List.headD_cons]
    by_cases hcase : p < s1
    · have hpre : mn < s1 := lt_of_le_of_lt hmnp hcase
      rw [if_pos hpre, List.countP_cons, List.countP_nil]
      have ht : inRangeB p
          ⟨"Prefacio", mn, s1 - 1, "chapter_prefacio.xhtml"⟩ = true := by
        simp [inRangeB]
        omega
      rw [ht]
      have h0 : List.countP (inRangeB p)
          (entryChapters tp mx 0 ((t1, s1) :: srest)) = 0 := by
        apply entryChapters_countP_zero hcase _ 0
        intro e he2
        rcases List.mem_cons.mp he2 with heq | h2
        · rw [heq]
        · exact (List.pairwise_cons.mp hsorted).1 e h2
      rw [h0]
      simp
    · push_neg at hcase
      have h1 : List.countP (inRangeB p)
          (entryChapters tp mx 0 ((t1, s1) :: srest)) = 1 :=
        entryChapters_countP_one hpmx srest t1 s1 0 hskS hsorted hcase
      rw [h1]
      by_cases hpre : mn < s1
      · rw [if_pos hpre, List.countP_cons, List.countP_nil]
        have hf : inRangeB p
            ⟨"Prefacio", mn, s1 - 1, "chapter_prefacio.xhtml"⟩ = false := by
          simp [inRangeB]
          omega
        rw [hf]
        simp
      · rw [if_neg hpre]
        simp

/-- C3 (amended): every chapter is either the synthesized preface, named
`chapter_prefacio.xhtml`, or comes from the entry at 0-based position `j`
of the sorted TOC entry list and is named `chapter_<j+1>.xhtml`; a skipped
entry still occupies its position, so emitted numbers may have gaps. -/
theorem chapter_filename_indexing
    (cps : List Int) (entries : List (String × Int)) (tp : Option Int)
    (chs : List SegChapter)
    (hne : entries ≠ [])
    (hseg : segmentChapters cps entries tp = some chs) :
    ∀ ch ∈ chs,
      (ch.title = "Prefacio" ∧ ch.filename = "chapter_prefacio.xhtml") ∨
      (∃ j, (sortByPage entries).get? j = some (ch.title, ch.start) ∧
        some ch.start ≠ tp ∧
        ch.filename = "chapter_" ++ toString (j + 1) ++ ".xhtml") := by
  intro ch hch
  by_cases hcps : cps = []
  · subst hcps
    rw [segmentChapters_empty_cps] at hseg
    simp at hseg
  · obtain ⟨mn, hmn⟩ := listMin_isSome hcps
    obtain ⟨mx, hmx⟩ := listMax_isSome hcps
    rw [segmentChapters_cons_entries tp hne hmn hmx] at hseg
    have hchs := (Option.some.inj hseg).symm
    subst hchs
    rcases List.mem_append.mp hch with hpre | hloop
    · left
      by_cases hc : mn < ((sortByPage entries).headD ("", 0)).2
      · rw [if_pos hc] at hpre
        rcases List.mem_cons.mp hpre with heq | h2
        · rw [heq]
          exact ⟨rfl, rfl⟩
        · simp at h2
      · rw [if_neg hc] at hpre
        simp at hpre
    · right
      obtain ⟨hnetp, j, hj, hf⟩ :=
        entryChapters_mem_spec (sortByPage entries) 0 ch hloop
      have harith : 0 + j + 1 = j + 1 := by omega
      rw [harith] at hf
      exact ⟨j, hj, hnetp, hf⟩

/-- C7: an entry whose starting page equals the designated TOC page is
skipped by the loop of lines 159-171, so apart from the synthesized preface
no produced chapter starts at the TOC page. -/
theorem toc_page_entry_no_chapter
    (cps : List Int) (entries : List (String × Int)) (tp : Option Int)
    (chs : List SegChapter)
    (hseg : segmentChapters cps entries tp = some chs)
    (e : String × Int) (he : e ∈ entries) (_hetp : some e.2 = tp) :
    ∀ ch ∈ chs, ch.filename = "chapter_prefacio.xhtml" ∨ some ch.start ≠ tp := by
  intro ch hch
  have hne : entries ≠ [] := List.ne_nil_of_mem he
  by_cases hcps : cps = []
  · subst hcps
    rw [segmentChapters_empty_cps] at hseg
    simp at hseg
  · obtain ⟨mn, hmn⟩ := listMin_isSome hcps
    obtain ⟨mx, hmx⟩ := listMax_isSome hcps
    rw [segmentChapters_cons_entries tp hne hmn hmx] at hseg
    have hchs := (Option.some.inj hseg).symm
    subst hchs
    rcases List.mem_append.mp hch with hpre | hloop
    · left
      by_cases hc : mn < ((sortByPage entries).headD ("", 0)).2
      · rw [if_pos hc] at hpre
        rcases List.mem_cons.mp hpre with heq | h2
        · rw [heq]
        · simp at h2
      · rw [if_neg hc] at hpre
        simp at hpre
    · right
      exact (entryChapters_mem_spec (sortByPage entries) 0 ch hloop).1

/-- C5: with no TOC page designated, a document of `N ≥ 2` pages yields the
single fallback chapter `Contenido` spanning pages `2..N` under the name
`chapter_1.xhtml`. -/
theorem no_toc_single_chapter (N : Int) (pageText : Int → String)
    (h : 2 ≤ N) :
    conversionChapters N pageText none =
      some [⟨"Contenido", 2, N, "chapter_1.xhtml"⟩] := by
  have hcp : contentPages N none = intRange 2 N := rfl
  have hmn : listMin (contentPages N none) = some 2 := by
    rw [hcp]
    exact listMin_intRange h
  have hmx : listMax (contentPages N none) = some N := by
    rw [hcp]
    exact listMax_intRange h
  have hte : tocEntriesOf N pageText none = [] := rfl
  unfold conversionChapters
  rw [hte]
  exact segmentChapters_nil_entries none hmn hmx

/-- C10: with an empty eligible-page set the segmentation evaluates
`min(content_pages)` (line 154 or 174) on an empty list, an unhandled
`ValueError`; no EPUB is produced. -/
theorem empty_content_pages_error (N : Int) (pageText : Int → String)
    (tp : Option Int) (h : contentPages N tp = []) :
    conversionChapters N pageText tp = none := by
  unfold conversionChapters
  rw [h]
  exact segmentChapters_empty_cps _ _

theorem parseLines_nonneg :
    ∀ (lns : List (List Char)) (e : String × Int),
      e ∈ parseLines lns → 0 ≤ e.2 := by
  intro lns
  induction lns with
  | nil => intro e h; simp [parseLines] at h
  | cons lc rest ih =>
    intro e h
    simp only [parseLines] at h
    split at h
    · exact ih e h
    · split at h
      · rcases List.mem_cons.mp h with heq | h3
        · subst heq
          simp
        · exact ih e h3
      · exact ih e h

/-- C8 (amended): every TOC entry produced by the parser carries a
nonnegative starting page (group 2 is a digit run, whose value may be 0). -/
theorem parse_toc_page_nonneg (text : String) (e : String × Int)
    (he : e ∈ parse_toc_text text) : 0 ≤ e.2 :=
  parseLines_nonneg (pySplitlines text) e he

/-- C1 counterexample: with eligible pages `{2,3,4,6,7}`, TOC page 4 and
entries `A→2, B→4, C→7`, entry `B` is skipped, the produced chapters cover
only `[2,3]` and `[7,7]`, and the eligible page 6 lies in no chapter: the
claimed partition fails. -/
theorem segment_not_partition_cex :
    segmentChapters [2, 3, 4, 6, 7] [("A", 2), ("B", 4), ("C", 7)] (some 4) =
      some [⟨"A", 2, 3, "chapter_1.xhtml"⟩, ⟨"C", 7, 7, "chapter_3.xhtml"⟩] ∧
    (6 : Int) ∈ ([2, 3, 4, 6, 7] : List Int) ∧
    List.countP (inRangeB 6)
      [⟨"A", 2, 3, "chapter_1.xhtml"⟩, ⟨"C", 7, 7, "chapter_3.xhtml"⟩] = 0 := by
  decide

/-- C1 witness: a concrete run of the partition theorem, with eligible pages
`{2,3,4}`, one entry `A→3` and no TOC page, at eligible page 3. -/
theorem segment_partition_witness : List.countP (inRangeB 3)
    [⟨"Prefacio", 2, 2, "chapter_prefacio.xhtml"⟩,
      ⟨"A", 3, 4, "chapter_1.xhtml"⟩] = 1 :=
  segment_partition_of_no_skip [2, 3, 4] [("A", 3)] none
    [⟨"Prefacio", 2, 2, "chapter_prefacio.xhtml"⟩,
      ⟨"A", 3, 4, "chapter_1.xhtml"⟩]
    (by decide) (by decide) 3 (by decide)

set_option maxRecDepth 4000 in
/-- C2: in a 5-page conversion with TOC page 3 whose text parses to the
single entry `A→2`, page 3 is excluded from the eligible pages, yet the one
produced chapter spans pages 2-5, a range containing the TOC page, and its
combined content concatenates page 3's stored content: the TOC page is not
kept out of the chapter contents. -/
theorem toc_page_content_leak :
    conversionChapters 5 c2PageText (some 3) =
      some [⟨"A", 2, 5, "chapter_1.xhtml"⟩] ∧
    (3 : Int) ∉ contentPages 5 (some 3) ∧
    ((2 : Int) ≤ 3 ∧ (3 : Int) ≤ 5) ∧
    combine_pages (page_contents 5 c2PageText c2ImagesHtml) 2 5 =
      c2PageContentAt 2 ++ c2PageContentAt 3 ++
        c2PageContentAt 4 ++ c2PageContentAt 5 := by
  decide

/-- C3 counterexample: with eligible pages `{2,3,5,6}`, TOC page 4 and
entries `A→4, B→5`, entry `A` is skipped but consumes index 1, so the first
(and only) emitted TOC-derived chapter is named `chapter_2.xhtml`, not
`chapter_1.xhtml`: the emitted numbering is not consecutive from 1. -/
theorem chapter_numbering_gap_cex :
    segmentChapters [2, 3, 5, 6] [("A", 4), ("B", 5)] (some 4) =
      some [⟨"Prefacio", 2, 3, "chapter_prefacio.xhtml"⟩,
        ⟨"B", 5, 6, "chapter_2.xhtml"⟩] ∧
    ("chapter_2.xhtml" : String) ≠ "chapter_1.xhtml" := by
  decide

/-- C3 witness: a concrete run of the filename-indexing theorem, on the
single-entry segmentation `A→2` over pages `{2,3}`. -/
theorem chapter_filename_indexing_witness :
    ((SegChapter.mk "A" 2 3 "chapter_1.xhtml").title = "Prefacio" ∧
      (SegChapter.mk "A" 2 3 "chapter_1.xhtml").filename =
        "chapter_prefacio.xhtml") ∨
    (∃ j, (sortByPage [("A", 2)]).get? j =
        some ((SegChapter.mk "A" 2 3 "chapter_1.xhtml").title,
          (SegChapter.mk "A" 2 3 "chapter_1.xhtml").start) ∧
      some (SegChapter.mk "A" 2 3 "chapter_1.xhtml").start ≠ none ∧
      (SegChapter.mk "A" 2 3 "chapter_1.xhtml").filename =
        "chapter_" ++ toString (j + 1) ++ ".xhtml") :=
  chapter_filename_indexing [2, 3] [("A", 2)] none
    [⟨"A", 2, 3, "chapter_1.xhtml"⟩] (by decide) (by decide)
    ⟨"A", 2, 3, "chapter_1.xhtml"⟩ (by decide)

/-- C4: on the three-line TOC text of the specification, the parser returns
exactly `Introduccion→3` and `Capitulo Uno→10`, in order, dropping the
`Contenido` line. -/
theorem parse_toc_example_eval :
    parse_toc_text "Introduccion .... 3\nCapitulo Uno - 10\nContenido ..... 1" =
      [("Introduccion", 3), ("Capitulo Uno", 10)] := by
  decide

/-- C5 witness: a concrete 5-page run of the no-TOC fallback theorem. -/
theorem no_toc_single_chapter_witness : (2 : Int) ≤ 5 ∧
    conversionChapters 5 (fun _ => "") none =
      some [⟨"Contenido", 2, 5, "chapter_1.xhtml"⟩] :=
  ⟨by decide, no_toc_single_chapter 5 (fun _ => "") (by decide)⟩

/-- C6: with eligible pages `2..20`, sorted entries `A→3, B→10` and TOC
page 1, segmentation yields exactly the chapters `Prefacio` on page 2,
`A` on pages 3-9 and `B` on pages 10-20. -/
theorem segment_example_three_chapters :
    segmentChapters (intRange 2 20) [("A", 3), ("B", 10)] (some 1) =
      some [⟨"Prefacio", 2, 2, "chapter_prefacio.xhtml"⟩,
        ⟨"A", 3, 9, "chapter_1.xhtml"⟩, ⟨"B", 10, 20, "chapter_2.xhtml"⟩] := by
  decide

/-- C7 witness: a concrete run of the skipped-entry theorem, with pages
`{2,4}`, the single entry `A→3` and TOC page 3; only the preface is
produced. -/
theorem toc_page_entry_no_chapter_witness :
    ((SegChapter.mk "Prefacio" 2 2 "chapter_prefacio.xhtml").filename =
      "chapter_prefacio.xhtml") ∨
    some (SegChapter.mk "Prefacio" 2 2 "chapter_prefacio.xhtml").start ≠
      some 3 :=
  toc_page_entry_no_chapter [2, 4] [("A", 3)] (some 3)
    [⟨"Prefacio", 2, 2, "chapter_prefacio.xhtml"⟩] (by decide)
    ("A", 3) (by decide) (by decide)
    ⟨"Prefacio", 2, 2, "chapter_prefacio.xhtml"⟩ (by decide)

/-- C8 counterexample: the line `x .... 0` matches the TOC pattern with
page number 0, so not every parsed entry has a strictly positive starting
page. -/
theorem parse_toc_zero_page_cex :
    ¬ (∀ e ∈ parse_toc_text "x .... 0", 0 < e.2) := by
  decide

/-- C8 witness: a concrete run of the nonnegativity theorem on the entry
parsed from `Intro .... 3`. -/
theorem parse_toc_page_nonneg_witness : (0 : Int) ≤ (("Intro", (3 : Int))).2 :=
  parse_toc_page_nonneg "Intro .... 3" ("Intro", 3) (by decide)

/-- C9: invoked with only an input path (`argv = [script, input]`), the
program does not raise the usage error but proceeds, deriving the output
name from the input; the usage error fires only with no user argument at
all. -/
theorem cli_single_arg_runs :
    mainArgs ["pdf_to_epub.py", "book.pdf"] =
      MainResult.runs "book.pdf" "book.epub" none ∧
    mainArgs ["pdf_to_epub.py", "book.pdf"] ≠ MainResult.usageError ∧
    mainArgs ["pdf_to_epub.py"] = MainResult.usageError := by
  decide

/-- C10 witness: a 1-page document has no eligible pages and the conversion
aborts with the modelled unhandled error. -/
theorem empty_content_pages_error_witness :
    contentPages 1 none = [] ∧
    conversionChapters 1 (fun _ => "") none = none :=
  ⟨by decide, empty_content_pages_error 1 (fun _ => "") none (by decide)⟩
